import Mathlib

/-!
Shallow embedding of the frequency-comparison core of `src/analysis.py`
(functions `parse_frequency_file`, `group_plural_words`,
`compare_frequency_files`).

Modelling conventions:
* A Python `str` is a `List Char` (called `Word` below); the ASCII fragment
  of `str.strip`, `str.lower`, `str.split(':')` and `int(...)` is modelled
  by structural functions on character lists.
* A Python `dict` is an insertion-ordered association list with unique keys;
  `d[k] = v` overwrites the first (unique) occurrence in place and appends
  fresh keys at the end, exactly as CPython dicts behave.
* Python float division is modelled by exact division in `ℚ`.
* File input is a list of lines; file output is modelled by the pure
  `Emission` records that `compare_frequency_files` produces for each call
  of its inner `generate_analysis` helper.
-/

set_option autoImplicit false

namespace DocuSearch

/-- A Python string, as its sequence of characters. -/
abbrev Word := List Char

/-- `freq_dict` of `parse_frequency_file` / `grouped_dict` of `group_plural_words`. -/
abbrev FreqTable := List (Word × Int)

/-- The `mapping` defaultdict of `group_plural_words`. -/
abbrev MergeMap := List (Word × List Word)

/-- A `word -> relative frequency` dict (`normalized_dict`, `norm1`, `norm2`). -/
abbrev NormTable := List (Word × ℚ)

/-- ASCII model of the whitespace characters removed by Python `str.strip()`. -/
def pyIsSpace (c : Char) : Bool :=
  c == ' ' || c == '\t' || c == '\n' || c == '\r' || c == '\x0b' || c == '\x0c'

/-- Python `str.strip()`: drop whitespace from both ends. -/
def pyStrip (cs : Word) : Word :=
  ((cs.dropWhile pyIsSpace).reverse.dropWhile pyIsSpace).reverse

/-- ASCII model of Python `str.lower()` on one character. -/
def pyLowerChar (c : Char) : Char :=
  if 'A' ≤ c ∧ c ≤ 'Z' then Char.ofNat (c.toNat + 32) else c

/-- ASCII model of Python `str.lower()`. -/
def pyLower (cs : Word) : Word := cs.map pyLowerChar

/-- Python `str.split(':')`: split on every colon, keeping empty pieces. -/
def pySplitColon : Word → List Word
  | [] => [[]]
  | c :: rest =>
    if c = ':' then [] :: pySplitColon rest
    else
      match pySplitColon rest with
      | [] => [[c]]
      | g :: gs => (c :: g) :: gs

/-- Numeric value of an ASCII digit. -/
def digitVal (c : Char) : Nat := c.toNat - 48

/-- Digits of a base-10 literal after its first digit; a single underscore is
allowed between digits, as in Python 3 `int`. -/
def pyDigitsRest : Nat → Word → Option Nat
  | acc, [] => some acc
  | acc, '_' :: c :: rest =>
    if c.isDigit then pyDigitsRest (acc * 10 + digitVal c) rest else none
  | _, ['_'] => none
  | acc, c :: rest =>
    if c.isDigit then pyDigitsRest (acc * 10 + digitVal c) rest else none

/-- An unsigned base-10 literal: one digit, then `pyDigitsRest`. -/
def pyNat : Word → Option Nat
  | [] => none
  | c :: rest => if c.isDigit then pyDigitsRest (digitVal c) rest else none

/-- ASCII model of Python `int(...)` on an already-stripped string: optional
sign followed by a base-10 literal; `none` models the `ValueError` branch. -/
def pyInt : Word → Option Int
  | '+' :: rest => (pyNat rest).map (fun n => (n : Int))
  | '-' :: rest => (pyNat rest).map (fun n => -(n : Int))
  | cs => (pyNat cs).map (fun n => (n : Int))

/-- Python `d[k]` / `d.get(k)`: value of the first (unique) matching key. -/
def lookupD {β : Type} : List (Word × β) → Word → Option β
  | [], _ => none
  | p :: rest, k => if p.1 = k then some p.2 else lookupD rest k

/-- Python `k in d`. -/
def hasKeyD {β : Type} (d : List (Word × β)) (k : Word) : Bool :=
  d.any (fun p => p.1 == k)

/-- Python `d[k] = v`: overwrite the first matching key in place, else append. -/
def insertD {β : Type} : List (Word × β) → Word → β → List (Word × β)
  | [], k, v => [(k, v)]
  | p :: rest, k, v => if p.1 = k then (k, v) :: rest else p :: insertD rest k v

/-- `defaultdict` update `d[k] = f d[k]`, where a missing key defaults so that
the stored value is `init` (`init = f default`). -/
def upsertD {β : Type} (f : β → β) (init : β) : List (Word × β) → Word → List (Word × β)
  | [], k => [(k, init)]
  | p :: rest, k => if p.1 = k then (p.1, f p.2) :: rest else p :: upsertD f init rest k

/-- `list(d.keys())`. -/
def keysD {β : Type} (d : List (Word × β)) : List Word := d.map Prod.fst

/-- `sum(d.values())`. -/
def sumValuesD (d : FreqTable) : Int := (d.map (fun p => p.2)).sum

/-- One iteration of the line loop of `parse_frequency_file`: skip lines
without a colon, split on `:`, require exactly two parts, lowercase the
trimmed word, parse the trimmed count, and assign into the dict; any
malformed line leaves the dict unchanged. -/
def parseLine (acc : FreqTable) (line : Word) : FreqTable :=
  if line.any (fun c => c == ':') then
    match pySplitColon (pyStrip line) with
    | [w, c] =>
      match pyInt (pyStrip c) with
      | some count => insertD acc (pyLower (pyStrip w)) count
      | none => acc
    | _ => acc
  else acc

/-- The `(word, count)` pair a single line contributes, if any. -/
def lineContribution (line : Word) : Option (Word × Int) :=
  if line.any (fun c => c == ':') then
    match pySplitColon (pyStrip line) with
    | [w, c] => (pyInt (pyStrip c)).map (fun n => (pyLower (pyStrip w), n))
    | _ => none
  else none

/-- Python `sum(...) or 1`: `1` exactly when the sum is `0` (falsy). -/
def intOrOne (n : Int) : Int := if n = 0 then 1 else n

/-- `{word: count / total for ...}` with `total = sum(d.values()) or 1`. -/
def normalizeD (d : FreqTable) : NormTable :=
  d.map (fun p => (p.1, (p.2 : ℚ) / ((intOrOne (sumValuesD d) : Int) : ℚ)))

/-- `parse_frequency_file`, over the file's lines: returns
`(freq_dict, normalized_dict, total_count)`. -/
def parse_frequency_file (lines : List Word) : FreqTable × NormTable × Int :=
  let freq := lines.foldl parseLine []
  (freq, normalizeD freq, intOrOne (sumValuesD freq))

/-- The `irregulars` table of `group_plural_words`. -/
def irregulars : List (Word × Word) :=
  [("children".data, "child".data), ("mice".data, "mouse".data), ("geese".data, "goose".data)]

/-- The singular chosen for `word` inside the loop of `group_plural_words`:
irregular lookup first, else strip a trailing `s` when the word is longer
than 3 characters and the stripped form is a key of the original table. -/
def canonOf (freq : FreqTable) (word : Word) : Word :=
  match lookupD irregulars word with
  | some sg => sg
  | none =>
    if word.getLast? == some 's' && decide (3 < word.length) && hasKeyD freq word.dropLast then
      word.dropLast
    else word

/-- One iteration of the loop of `group_plural_words`:
`grouped_dict[singular] += freq_dict[word]`, and when the word changed,
`mapping[singular].append(word)`. -/
def groupStep (freq : FreqTable) (acc : FreqTable × MergeMap) (entry : Word × Int) :
    FreqTable × MergeMap :=
  let singular := canonOf freq entry.1
  (upsertD (fun n => n + entry.2) entry.2 acc.1 singular,
   if entry.1 = singular then acc.2
   else upsertD (fun l => l ++ [entry.1]) [entry.1] acc.2 singular)

/-- `group_plural_words`: fold the loop body over the table's entries
(iterating a dict yields each key once, with its unique value). -/
def group_plural_words (freq : FreqTable) : FreqTable × MergeMap :=
  freq.foldl (groupStep freq) ([], [])

/-- Ranking key of `sorted_all_words`: `norm1.get(w, 0) + norm2.get(w, 0)`. -/
def normGet (n : NormTable) (w : Word) : ℚ := (lookupD n w).getD 0

/-- `a` ranks at or before `b` in the `reverse=True` sort of
`sorted_all_words` (descending combined normalized frequency). -/
def rankSum (n1 n2 : NormTable) (a b : Word) : Prop :=
  normGet n1 b + normGet n2 b ≤ normGet n1 a + normGet n2 a

instance (n1 n2 : NormTable) : DecidableRel (rankSum n1 n2) :=
  fun a b =>
    inferInstanceAs (Decidable (normGet n1 b + normGet n2 b ≤ normGet n1 a + normGet n2 a))

instance (n1 n2 : NormTable) : IsTotal Word (rankSum n1 n2) :=
  ⟨fun a b => le_total (normGet n1 b + normGet n2 b) (normGet n1 a + normGet n2 a)⟩

instance (n1 n2 : NormTable) : IsTrans Word (rankSum n1 n2) :=
  ⟨fun _ _ _ h1 h2 => le_trans h2 h1⟩

/-- `a` ranks at or before `b` in a `reverse=True` sort by one corpus's
normalized frequency (`unique_to_file1` / `unique_to_file2`). -/
def rankOne (n : NormTable) (a b : Word) : Prop :=
  normGet n b ≤ normGet n a

instance (n : NormTable) : DecidableRel (rankOne n) :=
  fun a b => inferInstanceAs (Decidable (normGet n b ≤ normGet n a))

instance (n : NormTable) : IsTotal Word (rankOne n) :=
  ⟨fun a b => le_total (normGet n b) (normGet n a)⟩

instance (n : NormTable) : IsTrans Word (rankOne n) :=
  ⟨fun _ _ _ h1 h2 => le_trans h2 h1⟩

/-- `set(g1.keys()).union(set(g2.keys()))`, as a duplicate-free list. -/
def unionKeys (g1 g2 : FreqTable) : List Word :=
  keysD g1 ++ (keysD g2).filter (fun w => !hasKeyD g1 w)

/-- `set(g1.keys()) - common_words`: keys of the first table absent from the
second. -/
def uniqueKeys (g1 g2 : FreqTable) : List Word :=
  (keysD g1).filter (fun w => !hasKeyD g2 w)

/-- One display row built by `generate_analysis`: the word, its relative
frequency as a percentage (held exactly, where the source renders it with
two decimals), and the comma-joined merged surface forms. -/
structure Row where
  word : Word
  percent : ℚ
  grouped : Word

/-- `', '.join(...)`. -/
def joinCommaSpace : List Word → Word
  | [] => []
  | [w] => w
  | w :: rest => w ++ (',' :: ' ' :: joinCommaSpace rest)

/-- Decimal digits of a natural number, via the fuel-based core printer. -/
def natRepr (n : Nat) : Word := Nat.toDigits 10 n

/-- Python `str(int)`. -/
def pyIntRepr (n : Int) : Word :=
  match n with
  | Int.ofNat m => natRepr m
  | Int.negSucc m => '-' :: natRepr (m + 1)

/-- Python `s.replace(old, new)` with `fuel` bounding the scan length
(instantiated with the length of `s`; `old` is nonempty at every use site). -/
def pyReplaceFuel (pat rep : Word) : Nat → Word → Word
  | 0, cs => cs
  | _ + 1, [] => []
  | fuel + 1, c :: rest =>
    if pat.isPrefixOf (c :: rest) then rep ++ pyReplaceFuel pat rep fuel ((c :: rest).drop pat.length)
    else c :: pyReplaceFuel pat rep fuel rest

/-- Python `s.replace(old, new)`. -/
def pyReplaceAll (cs pat rep : Word) : Word := pyReplaceFuel pat rep cs.length cs

/-- The pure content of one `generate_analysis` call: the report it prints
and persists.  `savedTxt` / `savedCsv` record whether the text and csv
branches run (their paths are truthy). -/
structure Emission where
  title : Word
  txtPath : Word
  csvPath : Word
  csvMeta : List Word
  rows : List Row
  savedTxt : Bool
  savedCsv : Bool

/-- `generate_analysis`, as the `Emission` it produces.  The totals are the
enclosing function's `total_count1` / `total_count2`, captured by the closure
in the source and written into the csv metadata row. -/
def generate_analysis (word_list : List Word) (title : Word) (txt_file csv_file : Word)
    (norm_dict : NormTable) (mapping_dict : MergeMap) (total1 total2 : Int) : Emission :=
  { title := title
    txtPath := txt_file
    csvPath := csv_file
    csvMeta := ["Total Word Count".data,
                "2024: ".data ++ pyIntRepr total1 ++ " (File 1)".data,
                "2025: ".data ++ pyIntRepr total2 ++ " (File 2)".data, [], []]
    rows := word_list.map (fun w =>
      { word := w
        percent := normGet norm_dict w * 100
        grouped := joinCommaSpace ((lookupD mapping_dict w).getD []) })
    savedTxt := !(txt_file == [])
    savedCsv := !(csv_file == []) }

/-- Everything `compare_frequency_files` computes: the locals of the source
function together with the reports it emits. -/
structure ComparisonData where
  grouped_freq1 : FreqTable
  grouped_freq2 : FreqTable
  mapping1 : MergeMap
  mapping2 : MergeMap
  total_count1 : Int
  total_count2 : Int
  norm1 : NormTable
  norm2 : NormTable
  all_words : List Word
  sorted_all_words : List Word
  unique_to_file1 : List Word
  unique_to_file2 : List Word
  emissions : List Emission

/-- `compare_frequency_files`: parse both files, group plurals, recompute
totals and normalized tables from the grouped counts, rank the union and the
two unique vocabularies, and emit the two unique-word reports (the source
calls `generate_analysis` exactly twice, on `unique_to_file1` and
`unique_to_file2`). -/
def compare_frequency_files (lines1 lines2 : List Word) (top_n : Nat)
    (txt_output_path csv_output_path : Word) : ComparisonData :=
  let freq1 := (parse_frequency_file lines1).1
  let freq2 := (parse_frequency_file lines2).1
  let gm1 := group_plural_words freq1
  let gm2 := group_plural_words freq2
  let total1 := intOrOne (sumValuesD gm1.1)
  let total2 := intOrOne (sumValuesD gm2.1)
  let n1 := normalizeD gm1.1
  let n2 := normalizeD gm2.1
  let allw := unionKeys gm1.1 gm2.1
  let sortedAll := (List.insertionSort (rankSum n1 n2) allw).take top_n
  let uniq1 := (List.insertionSort (rankOne n1) (uniqueKeys gm1.1 gm2.1)).take top_n
  let uniq2 := (List.insertionSort (rankOne n2) (uniqueKeys gm2.1 gm1.1)).take top_n
  { grouped_freq1 := gm1.1
    grouped_freq2 := gm2.1
    mapping1 := gm1.2
    mapping2 := gm2.2
    total_count1 := total1
    total_count2 := total2
    norm1 := n1
    norm2 := n2
    all_words := allw
    sorted_all_words := sortedAll
    unique_to_file1 := uniq1
    unique_to_file2 := uniq2
    emissions :=
      [generate_analysis uniq1 "Words Unique to 2024 (File 1)".data
        (pyReplaceAll txt_output_path ".txt".data "_unique_2024.txt".data)
        (pyReplaceAll csv_output_path ".csv".data "_unique_2024.csv".data) n1 gm1.2 total1 total2,
       generate_analysis uniq2 "Words Unique to 2025 (File 2)".data
        (pyReplaceAll txt_output_path ".txt".data "_unique_2025.txt".data)
        (pyReplaceAll csv_output_path ".csv".data "_unique_2025.csv".data) n2 gm2.2 total1 total2] }

end DocuSearch
namespace DocuSearch

/-! ### Association-list lemmas -/

theorem lookupD_insertD {β : Type} (d : List (Word × β)) (k w : Word) (v : β) :
    lookupD (insertD d k v) w = if w = k then some v else lookupD d w := by
  induction d with
  | nil =>
    by_cases h : w = k
    · simp [insertD, lookupD, h]
    · simp [insertD, lookupD, h, Ne.symm h]
  | cons p rest ih =>
    by_cases hpk : p.1 = k
    · by_cases hwk : w = k
      · simp [insertD, lookupD, hpk, hwk]
      · have h1 : ¬k = w := Ne.symm hwk
        have h2 : ¬p.1 = w := fun hh => h1 (hpk ▸ hh)
        simp [insertD, lookupD, hpk, hwk, h1, h2]
    · by_cases hpw : p.1 = w
      · have hwk : ¬w = k := fun hh => hpk (hpw.trans hh)
        simp [insertD, lookupD, hpk, hpw, hwk]
      · simp [insertD, lookupD, hpk, hpw, ih]

theorem mem_insertD {β : Type} (d : List (Word × β)) (k w : Word) (v u : β)
    (h : (w, u) ∈ insertD d k v) : (w, u) ∈ d ∨ (w = k ∧ u = v) := by
  induction d with
  | nil => simpa [insertD] using h
  | cons p rest ih =>
    simp only [insertD] at h
    by_cases hpk : p.1 = k
    · simp only [if_pos hpk, List.mem_cons] at h
      rcases h with h | h
      · exact Or.inr ⟨(Prod.ext_iff.mp h).1, (Prod.ext_iff.mp h).2⟩
      · exact Or.inl (List.mem_cons_of_mem _ h)
    · simp only [if_neg hpk, List.mem_cons] at h
      rcases h with h | h
      · exact Or.inl (h ▸ List.mem_cons_self _ _)
      · rcases ih h with h' | h'
        · exact Or.inl (List.mem_cons_of_mem _ h')
        · exact Or.inr h'

/-! ### Parser lemmas -/

theorem parseLine_eq (acc : FreqTable) (line : Word) :
    parseLine acc line =
      match lineContribution line with
      | some wc => insertD acc wc.1 wc.2
      | none => acc := by
  unfold parseLine lineContribution
  by_cases h : line.any (fun c => c == ':')
  · simp only [if_pos h]
    cases hs : pySplitColon (pyStrip line) with
    | nil => rfl
    | cons w rest =>
      cases rest with
      | nil => rfl
      | cons c rest2 =>
        cases rest2 with
        | nil => cases hp : pyInt (pyStrip c) <;> simp [hp]
        | cons x xs => rfl
  · simp [h]

theorem getLast?_cons_or {α : Type} (a : α) (l : List α) :
    (a :: l).getLast? = (l.getLast? <|> some a) := by
  cases l with
  | nil => rfl
  | cons b t =>
    rw [List.getLast?_cons_cons]
    cases h : (b :: t).getLast? with
    | none => exact absurd (List.getLast?_eq_none_iff.mp h) (by simp)
    | some v => rfl

/-- The counts contributed for canonical word `w`, in line order. -/
def contributionsFor (lines : List Word) (w : Word) : List Int :=
  ((lines.filterMap lineContribution).filter (fun p => p.1 == w)).map Prod.snd

theorem lookupD_foldl_parseLine (lines : List Word) :
    ∀ (acc : FreqTable) (w : Word),
      lookupD (lines.foldl parseLine acc) w =
        ((contributionsFor lines w).getLast? <|> lookupD acc w) := by
  induction lines with
  | nil => intro acc w; simp [contributionsFor]
  | cons l ls ih =>
    intro acc w
    rw [List.foldl_cons, parseLine_eq]
    cases hc : lineContribution l with
    | none =>
      simp only [contributionsFor, List.filterMap_cons, hc]
      exact ih acc w
    | some kc =>
      simp only [contributionsFor, List.filterMap_cons, hc]
      by_cases hkw : kc.1 = w
      · have hfil : ((kc :: (ls.filterMap lineContribution)).filter (fun p => p.1 == w)) =
            kc :: ((ls.filterMap lineContribution).filter (fun p => p.1 == w)) := by
          simp [List.filter_cons, hkw]
        rw [hfil, List.map_cons, getLast?_cons_or]
        have hlook : lookupD (insertD acc kc.1 kc.2) w = some kc.2 := by
          rw [lookupD_insertD]
          exact if_pos hkw.symm
        rw [ih (insertD acc kc.1 kc.2) w, hlook]
        unfold contributionsFor
        cases htail :
            (((ls.filterMap lineContribution).filter (fun p => p.1 == w)).map Prod.snd).getLast? <;>
          simp [htail]
      · have hfil : ((kc :: (ls.filterMap lineContribution)).filter (fun p => p.1 == w)) =
            ((ls.filterMap lineContribution).filter (fun p => p.1 == w)) := by
          simp [List.filter_cons, hkw]
        rw [hfil]
        have hlook : lookupD (insertD acc kc.1 kc.2) w = lookupD acc w := by
          rw [lookupD_insertD]
          exact if_neg (fun hh => hkw hh.symm)
        rw [ih (insertD acc kc.1 kc.2) w, hlook]
        rfl

end DocuSearch
namespace DocuSearch

/-! ### Claim C8: malformed lines are skipped silently -/

/-- C8: a line whose colon-split has more than two parts, or whose count part
fails integer parsing, leaves the table unchanged — no entry is added and no
error is raised; in particular `"foo:bar:3"` leaves no `"foo"` entry. -/
theorem parse_skips_malformed :
    (∀ (acc : FreqTable) (line : Word),
        2 < (pySplitColon (pyStrip line)).length → parseLine acc line = acc)
    ∧ (∀ (acc : FreqTable) (line : Word) (w c : Word),
        pySplitColon (pyStrip line) = [w, c] → pyInt (pyStrip c) = none →
        parseLine acc line = acc)
    ∧ lookupD (parse_frequency_file ["foo:bar:3".data]).1 "foo".data = none := by
  refine ⟨?_, ?_, by decide⟩
  · intro acc line hlen
    unfold parseLine
    by_cases h : line.any (fun ch => ch == ':')
    · simp only [if_pos h]
      cases hs : pySplitColon (pyStrip line) with
      | nil => rfl
      | cons w rest =>
        cases rest with
        | nil => rfl
        | cons c rest2 =>
          cases rest2 with
          | nil => rw [hs] at hlen; simp at hlen
          | cons x xs => rfl
    · simp [h]
  · intro acc line w c hs hp
    unfold parseLine
    by_cases h : line.any (fun ch => ch == ':')
    · simp only [if_pos h, hs, hp]
    · simp [h]

/-- C8 witness: a concrete three-part line and a concrete bad-count line both
leave a nonempty accumulator unchanged. -/
theorem parse_skips_malformed_witness :
    parseLine [("a".data, 1)] "x:1:2".data = [("a".data, 1)]
    ∧ parseLine [("a".data, 1)] "x: y".data = [("a".data, 1)] := by
  constructor
  · exact parse_skips_malformed.1 [("a".data, 1)] "x:1:2".data (by decide)
  · exact parse_skips_malformed.2.1 [("a".data, 1)] "x: y".data "x".data " y".data
      (by decide) (by decide)

/-! ### Claim C9: duplicate canonical words are last-write-wins -/

/-- C9: for every input and word, the parsed table holds the count of the
last well-formed line whose trimmed, lowercased word is that word — the later
line overwrites, it does not add; concretely two `dog` lines keep the second
count `2`, not the sum `3`. -/
theorem parse_last_write_wins :
    (∀ (lines : List Word) (w : Word),
        lookupD (parse_frequency_file lines).1 w = (contributionsFor lines w).getLast?)
    ∧ lookupD (parse_frequency_file ["dog: 1".data, "dog: 2".data]).1 "dog".data = some 2
    ∧ ((2 : Int) ≠ 1 + 2) := by
  refine ⟨?_, by decide, by decide⟩
  intro lines w
  show lookupD (lines.foldl parseLine []) w = (contributionsFor lines w).getLast?
  rw [lookupD_foldl_parseLine]
  cases h : (contributionsFor lines w).getLast? <;> simp [lookupD]

end DocuSearch
namespace DocuSearch

/-! ### Grouping lemmas -/

theorem sumValuesD_upsertD_add (d : FreqTable) (k : Word) (v : Int) :
    sumValuesD (upsertD (fun n => n + v) v d k) = sumValuesD d + v := by
  induction d with
  | nil => simp [upsertD, sumValuesD]
  | cons p rest ih =>
    by_cases h : p.1 = k
    · simp only [upsertD, if_pos h, sumValuesD, List.map_cons, List.sum_cons]
      omega
    · simp only [upsertD, if_neg h, sumValuesD, List.map_cons, List.sum_cons] at ih ⊢
      omega

theorem group_fold_sum (freq : FreqTable) :
    ∀ (l : List (Word × Int)) (g : FreqTable) (m : MergeMap),
      sumValuesD (List.foldl (groupStep freq) (g, m) l).1 = sumValuesD g + sumValuesD l := by
  intro l
  induction l with
  | nil => intro g m; simp [sumValuesD]
  | cons e rest ih =>
    intro g m
    rw [List.foldl_cons]
    have h1 := ih (groupStep freq (g, m) e).1 (groupStep freq (g, m) e).2
    have h2 : sumValuesD (groupStep freq (g, m) e).1 = sumValuesD g + e.2 :=
      sumValuesD_upsertD_add g (canonOf freq e.1) e.2
    calc sumValuesD (List.foldl (groupStep freq) (groupStep freq (g, m) e) rest).1
        = sumValuesD (groupStep freq (g, m) e).1 + sumValuesD rest := h1
      _ = (sumValuesD g + e.2) + sumValuesD rest := by rw [h2]
      _ = sumValuesD g + sumValuesD (e :: rest) := by
          simp only [sumValuesD, List.map_cons, List.sum_cons]; omega

/-! ### Claim C1: grouping conserves the total count -/

/-- C1: for every FrequencyTable, the counts of the grouped table produced by
`group_plural_words` sum to exactly the sum of the source table's counts —
grouping only redistributes counts. -/
theorem group_conserves_total (freq : FreqTable) :
    sumValuesD (group_plural_words freq).1 = sumValuesD freq := by
  have h := group_fold_sum freq freq [] []
  simpa [sumValuesD] using h

/-! ### Merge-map soundness lemmas -/

theorem mem_upsertD_append (m : MergeMap) (k wd : Word) :
    ∀ (c : Word) (lst : List Word) (s : Word),
      (c, lst) ∈ upsertD (fun l => l ++ [wd]) [wd] m k → s ∈ lst →
      (∃ lst₀, (c, lst₀) ∈ m ∧ s ∈ lst₀) ∨ (c = k ∧ s = wd) := by
  induction m with
  | nil =>
    intro c lst s hmem hs
    simp only [upsertD, List.mem_singleton, Prod.mk.injEq] at hmem
    obtain ⟨hc, hl⟩ := hmem
    subst hc; subst hl
    simp only [List.mem_singleton] at hs
    exact Or.inr ⟨rfl, hs⟩
  | cons p rest ih =>
    intro c lst s hmem hs
    by_cases hpk : p.1 = k
    · simp only [upsertD, if_pos hpk, List.mem_cons, Prod.mk.injEq] at hmem
      rcases hmem with ⟨hc, hl⟩ | h
      · subst hc
        rw [hl] at hs
        rcases List.mem_append.mp hs with h' | h'
        · exact Or.inl ⟨p.2, List.mem_cons_self _ _, h'⟩
        · simp only [List.mem_singleton] at h'
          exact Or.inr ⟨hpk, h'⟩
      · exact Or.inl ⟨lst, List.mem_cons_of_mem _ h, hs⟩
    · simp only [upsertD, if_neg hpk, List.mem_cons] at hmem
      rcases hmem with h | h
      · exact Or.inl ⟨lst, h ▸ List.mem_cons_self _ _, hs⟩
      · rcases ih c lst s h hs with h' | h'
        · obtain ⟨l0, hl0, hsl0⟩ := h'
          exact Or.inl ⟨l0, List.mem_cons_of_mem _ hl0, hsl0⟩
        · exact Or.inr h'

theorem group_fold_mapping_sound (freq : FreqTable) :
    ∀ (l : List (Word × Int)) (g : FreqTable) (m : MergeMap),
      (∀ e ∈ l, e.1 ∈ keysD freq) →
      (∀ c lst, (c, lst) ∈ m → ∀ s ∈ lst, s ≠ c ∧ s ∈ keysD freq) →
      ∀ c lst, (c, lst) ∈ (List.foldl (groupStep freq) (g, m) l).2 →
        ∀ s ∈ lst, s ≠ c ∧ s ∈ keysD freq := by
  intro l
  induction l with
  | nil => intro g m _ hm c lst hmem s hs; exact hm c lst hmem s hs
  | cons e rest ih =>
    intro g m hl hm c lst hmem s hs
    rw [List.foldl_cons] at hmem
    refine ih (groupStep freq (g, m) e).1 (groupStep freq (g, m) e).2
      (fun e' he' => hl e' (List.mem_cons_of_mem _ he')) ?_ c lst hmem s hs
    intro c' lst' hmem' s' hs'
    by_cases hcanon : e.1 = canonOf freq e.1
    · have : (groupStep freq (g, m) e).2 = m := by
        unfold groupStep
        simp only [if_pos hcanon]
      rw [this] at hmem'
      exact hm c' lst' hmem' s' hs'
    · have : (groupStep freq (g, m) e).2 =
          upsertD (fun ls => ls ++ [e.1]) [e.1] m (canonOf freq e.1) := by
        unfold groupStep
        simp only [if_neg hcanon]
      rw [this] at hmem'
      rcases mem_upsertD_append m (canonOf freq e.1) e.1 c' lst' s' hmem' hs' with h' | h'
      · obtain ⟨l0, hl0, hsl0⟩ := h'
        exact hm c' l0 hl0 s' hsl0
      · obtain ⟨hc', hs''⟩ := h'
        subst hc'; subst hs''
        exact ⟨fun hh => hcanon hh, hl e (List.mem_cons_self _ _)⟩

/-! ### Claim C2 -/

/-- C2 counterexample: on the table with keys `bosss`, `boss`, `bos` (each
count 1), the merge map lists `boss` under canonical `bos` while `boss` is
itself a merge-map key for the different canonical word `boss` — the
no-transitive-merge clause of the claim is false. -/
theorem merge_map_transitive_counterexample :
    ("bos".data, ["boss".data]) ∈
        (group_plural_words [("bosss".data, (1 : Int)), ("boss".data, 1), ("bos".data, 1)]).2
    ∧ ("boss".data, ["bosss".data]) ∈
        (group_plural_words [("bosss".data, (1 : Int)), ("boss".data, 1), ("bos".data, 1)]).2
    ∧ "boss".data ≠ "bos".data := by decide

/-- C2 (amended): every surface form `s` listed under a canonical word `c` in
the merge map of `group_plural_words` satisfies `s ≠ c` and `s` was a key of
the original table (a listed form may, however, itself be a merge-map key
when the table contains a chain such as bosss/boss/bos). -/
theorem merge_map_sound (freq : FreqTable) (c : Word) (lst : List Word) (s : Word)
    (hmem : (c, lst) ∈ (group_plural_words freq).2) (hs : s ∈ lst) :
    s ≠ c ∧ s ∈ keysD freq :=
  group_fold_mapping_sound freq freq [] []
    (fun e he => List.mem_map_of_mem Prod.fst he) (by simp) c lst hmem s hs

/-- C2 witness: on `{risks: 1, risk: 2}` the merge map is `{risk: [risks]}`,
and the theorem yields `risks ≠ risk` and `risks ∈ keys`. -/
theorem merge_map_sound_witness :
    "risks".data ≠ "risk".data
    ∧ "risks".data ∈ keysD [("risks".data, (1 : Int)), ("risk".data, 2)] :=
  merge_map_sound [("risks".data, 1), ("risk".data, 2)] "risk".data ["risks".data]
    "risks".data (by decide) (by decide)

end DocuSearch
namespace DocuSearch

/-! ### Idempotence lemmas -/

theorem upsertD_of_hasKeyD_false {β : Type} (f : β → β) (init : β) (d : List (Word × β))
    (k : Word) (h : hasKeyD d k = false) : upsertD f init d k = d ++ [(k, init)] := by
  induction d with
  | nil => rfl
  | cons p rest ih =>
    simp only [hasKeyD, List.any_cons, Bool.or_eq_false_iff, beq_eq_false_iff_ne, ne_eq] at h
    rw [upsertD, if_neg h.1, ih h.2]
    simp

theorem canonOf_eq_self (freq : FreqTable) (word : Word)
    (h1 : lookupD irregulars word = none)
    (h2 : ¬(word.getLast? = some 's' ∧ 3 < word.length ∧ hasKeyD freq word.dropLast = true)) :
    canonOf freq word = word := by
  unfold canonOf
  rw [h1]
  cases hb : (word.getLast? == some 's' && decide (3 < word.length)
      && hasKeyD freq word.dropLast) with
  | false => simp [hb]
  | true =>
    exfalso
    apply h2
    simp only [Bool.and_eq_true, beq_iff_eq, decide_eq_true_eq] at hb
    exact ⟨hb.1.1, hb.1.2, hb.2⟩

theorem hasKeyD_append {β : Type} (d1 d2 : List (Word × β)) (k : Word) :
    hasKeyD (d1 ++ d2) k = (hasKeyD d1 k || hasKeyD d2 k) := by
  simp [hasKeyD, List.any_append]

theorem group_fold_id (freq : FreqTable) :
    ∀ (l : List (Word × Int)) (g : FreqTable) (m : MergeMap),
      (∀ e ∈ l, canonOf freq e.1 = e.1) →
      (keysD l).Nodup →
      (∀ e ∈ l, hasKeyD g e.1 = false) →
      List.foldl (groupStep freq) (g, m) l = (g ++ l, m) := by
  intro l
  induction l with
  | nil => intro g m _ _ _; simp
  | cons e rest ih =>
    intro g m hcanon hnodup habs
    have hce : canonOf freq e.1 = e.1 := hcanon e (List.mem_cons_self _ _)
    have hstep : groupStep freq (g, m) e = (g ++ [e], m) := by
      show (upsertD (fun n => n + e.2) e.2 g (canonOf freq e.1),
        if e.1 = canonOf freq e.1 then m
        else upsertD (fun l => l ++ [e.1]) [e.1] m (canonOf freq e.1)) = (g ++ [e], m)
      rw [hce, upsertD_of_hasKeyD_false _ _ _ _ (habs e (List.mem_cons_self _ _))]
      simp
    have hhead : e.1 ∉ keysD rest := by
      have h := hnodup
      simp only [keysD, List.map_cons, List.nodup_cons] at h
      exact h.1
    rw [List.foldl_cons, hstep,
      ih (g ++ [e]) m (fun e' he' => hcanon e' (List.mem_cons_of_mem _ he'))
        (by
          have h := hnodup
          simp only [keysD, List.map_cons, List.nodup_cons] at h
          exact h.2)
        (fun e' he' => by
          rw [hasKeyD_append, habs e' (List.mem_cons_of_mem _ he')]
          have hne : ¬e.1 = e'.1 := fun hh =>
            hhead (hh ▸ List.mem_map_of_mem Prod.fst he')
          simp [hasKeyD, hne])]
    simp

/-! ### Claim C10: grouping a pattern-free table is a no-op -/

/-- C10: when no key of the table is in the irregular-plural lookup and no
key ends in `s` with length > 3 whose trailing-s-stripped form is also a
key, `group_plural_words` returns the table unchanged together with an
empty merge map. -/
theorem group_no_plural_pattern_id (freq : FreqTable)
    (hnodup : (keysD freq).Nodup)
    (hpat : ∀ e ∈ freq, lookupD irregulars e.1 = none ∧
        ¬(e.1.getLast? = some 's' ∧ 3 < e.1.length ∧ hasKeyD freq e.1.dropLast = true)) :
    group_plural_words freq = (freq, []) := by
  have h := group_fold_id freq freq [] []
    (fun e he => canonOf_eq_self freq e.1 (hpat e he).1 (hpat e he).2)
    hnodup (fun e _ => rfl)
  simpa using h

/-- C10 witness: a concrete pattern-free table maps to itself with an empty
merge map. -/
theorem group_no_plural_pattern_id_witness :
    group_plural_words [("policy".data, (3 : Int)), ("world".data, 2)] =
      ([("policy".data, (3 : Int)), ("world".data, 2)], []) :=
  group_no_plural_pattern_id [("policy".data, (3 : Int)), ("world".data, 2)]
    (by decide) (by decide)

end DocuSearch
namespace DocuSearch

/-! ### Non-negativity and total lemmas -/

theorem intOrOne_ne_zero (n : Int) : intOrOne n ≠ 0 := by
  unfold intOrOne
  split_ifs with h
  · omega
  · exact h

theorem intOrOne_ge_one_of_nonneg (n : Int) (h : 0 ≤ n) : 1 ≤ intOrOne n := by
  unfold intOrOne
  split_ifs with h0
  · omega
  · omega

theorem sumValuesD_nonneg (d : FreqTable) (h : ∀ p ∈ d, 0 ≤ p.2) : 0 ≤ sumValuesD d :=
  List.sum_nonneg (by
    intro x hx
    obtain ⟨p, hp, hpx⟩ := List.mem_map.mp hx
    exact hpx ▸ h p hp)

theorem mem_upsertD_add_nonneg (d : FreqTable) (k : Word) (v : Int)
    (hd : ∀ p ∈ d, 0 ≤ p.2) (hv : 0 ≤ v) :
    ∀ p ∈ upsertD (fun n => n + v) v d k, 0 ≤ p.2 := by
  induction d with
  | nil =>
    intro p hp
    simp only [upsertD, List.mem_singleton] at hp
    rw [hp]
    exact hv
  | cons q rest ih =>
    intro p hp
    by_cases hq : q.1 = k
    · simp only [upsertD, if_pos hq, List.mem_cons] at hp
      rcases hp with hp | hp
      · rw [hp]
        exact add_nonneg (hd q (List.mem_cons_self _ _)) hv
      · exact hd p (List.mem_cons_of_mem _ hp)
    · simp only [upsertD, if_neg hq, List.mem_cons] at hp
      rcases hp with hp | hp
      · exact hp ▸ hd q (List.mem_cons_self _ _)
      · exact ih (fun r hr => hd r (List.mem_cons_of_mem _ hr)) p hp

theorem group_fold_nonneg (freq : FreqTable) :
    ∀ (l : List (Word × Int)) (g : FreqTable) (m : MergeMap),
      (∀ e ∈ l, 0 ≤ e.2) → (∀ p ∈ g, 0 ≤ p.2) →
      ∀ p ∈ (List.foldl (groupStep freq) (g, m) l).1, 0 ≤ p.2 := by
  intro l
  induction l with
  | nil => intro g m _ hg p hp; exact hg p hp
  | cons e rest ih =>
    intro g m hl hg p hp
    rw [List.foldl_cons] at hp
    refine ih (groupStep freq (g, m) e).1 (groupStep freq (g, m) e).2
      (fun e' he' => hl e' (List.mem_cons_of_mem _ he')) ?_ p hp
    exact mem_upsertD_add_nonneg g (canonOf freq e.1) e.2 hg (hl e (List.mem_cons_self _ _))

theorem group_preserves_nonneg (freq : FreqTable) (h : ∀ p ∈ freq, 0 ≤ p.2) :
    ∀ p ∈ (group_plural_words freq).1, 0 ≤ p.2 :=
  group_fold_nonneg freq freq [] [] h (by simp)

theorem parse_fold_nonneg (lines : List Word) :
    ∀ (acc : FreqTable),
      (∀ l ∈ lines, 0 ≤ ((lineContribution l).map Prod.snd).getD 0) →
      (∀ p ∈ acc, 0 ≤ p.2) →
      ∀ p ∈ lines.foldl parseLine acc, 0 ≤ p.2 := by
  induction lines with
  | nil => intro acc _ hacc p hp; exact hacc p hp
  | cons l ls ih =>
    intro acc hl hacc p hp
    rw [List.foldl_cons, parseLine_eq] at hp
    cases hc : lineContribution l with
    | none =>
      rw [hc] at hp
      exact ih acc (fun l' hl' => hl l' (List.mem_cons_of_mem _ hl')) hacc p hp
    | some wc =>
      rw [hc] at hp
      have hwc : 0 ≤ wc.2 := by
        have := hl l (List.mem_cons_self _ _)
        rw [hc] at this
        simpa using this
      refine ih (insertD acc wc.1 wc.2) (fun l' hl' => hl l' (List.mem_cons_of_mem _ hl'))
        ?_ p hp
      intro q hq
      rcases mem_insertD acc wc.1 q.1 wc.2 q.2 (by simpa using hq) with h' | h'
      · exact hacc (q.1, q.2) h'
      · have : q.2 = wc.2 := h'.2
        rw [this]
        exact hwc

theorem parse_preserves_nonneg (lines : List Word)
    (h : ∀ l ∈ lines, 0 ≤ ((lineContribution l).map Prod.snd).getD 0) :
    ∀ p ∈ (parse_frequency_file lines).1, 0 ≤ p.2 :=
  parse_fold_nonneg lines [] h (by simp)

/-! ### Claim C4 -/

/-- C4 counterexample: `parse_frequency_file` accepts the line `a: -5` and
stores the negative count `-5`, so not every stored count is non-negative. -/
theorem parse_negative_count_counterexample :
    (parse_frequency_file ["a: -5".data]).1 = [("a".data, -5)] ∧ (-5 : Int) < 0 := by
  decide

/-- C4 (amended): every count stored by `parse_frequency_file` is an integer,
and whenever every well-formed input line carries a non-negative count (as
the upstream frequency writer guarantees), every stored count is
non-negative. -/
theorem parse_counts_nonneg (lines : List Word)
    (h : ∀ l ∈ lines, 0 ≤ ((lineContribution l).map Prod.snd).getD 0) :
    ∀ p ∈ (parse_frequency_file lines).1, 0 ≤ p.2 :=
  parse_preserves_nonneg lines h

/-- C4 witness: on the input `a: 3` plus a junk line, the stored entry for
`a` is non-negative. -/
theorem parse_counts_nonneg_witness :
    (0 : Int) ≤ (("a".data, (3 : Int)) : Word × Int).2 :=
  parse_counts_nonneg ["a: 3".data, "junk".data] (by decide) ("a".data, 3) (by decide)

/-! ### Claim C5 -/

/-- C5 counterexample: on the single line `a: -5` the parse total is `-5` —
`sum(...) or 1` is not a floor at 1, so the total can be below 1. -/
theorem total_below_one_counterexample :
    (parse_frequency_file ["a: -5".data]).2.2 = -5
    ∧ ¬(1 ≤ (parse_frequency_file ["a: -5".data]).2.2) := by
  decide

/-- C5 (amended): every total — the parse total and the two grouped totals
recomputed inside `compare_frequency_files` — equals the sum of the counts
when that sum is nonzero and `1` when it is zero, hence is never `0` and the
normalizing division is never a division by zero; when all parsed counts are
non-negative the totals are moreover ≥ 1. -/
theorem totals_never_zero :
    (∀ lines : List Word,
      (parse_frequency_file lines).2.2 = intOrOne (sumValuesD (parse_frequency_file lines).1)
      ∧ (parse_frequency_file lines).2.2 ≠ 0
      ∧ ((∀ p ∈ (parse_frequency_file lines).1, 0 ≤ p.2) →
          1 ≤ (parse_frequency_file lines).2.2))
    ∧ (∀ (l1 l2 : List Word) (n : Nat) (tp cp : Word),
      (compare_frequency_files l1 l2 n tp cp).total_count1 =
          intOrOne (sumValuesD (compare_frequency_files l1 l2 n tp cp).grouped_freq1)
      ∧ (compare_frequency_files l1 l2 n tp cp).total_count2 =
          intOrOne (sumValuesD (compare_frequency_files l1 l2 n tp cp).grouped_freq2)
      ∧ (compare_frequency_files l1 l2 n tp cp).total_count1 ≠ 0
      ∧ (compare_frequency_files l1 l2 n tp cp).total_count2 ≠ 0
      ∧ ((∀ p ∈ (parse_frequency_file l1).1, 0 ≤ p.2) →
          1 ≤ (compare_frequency_files l1 l2 n tp cp).total_count1)
      ∧ ((∀ p ∈ (parse_frequency_file l2).1, 0 ≤ p.2) →
          1 ≤ (compare_frequency_files l1 l2 n tp cp).total_count2)) := by
  constructor
  · intro lines
    refine ⟨rfl, intOrOne_ne_zero _, fun h => intOrOne_ge_one_of_nonneg _ ?_⟩
    exact sumValuesD_nonneg _ h
  · intro l1 l2 n tp cp
    refine ⟨rfl, rfl, intOrOne_ne_zero _, intOrOne_ne_zero _, fun h => ?_, fun h => ?_⟩
    · exact intOrOne_ge_one_of_nonneg _
        (sumValuesD_nonneg _ (group_preserves_nonneg _ h))
    · exact intOrOne_ge_one_of_nonneg _
        (sumValuesD_nonneg _ (group_preserves_nonneg _ h))

/-- C5 witness: on concrete non-negative corpora both grouped totals are
≥ 1 and the parse total is the nonzero sum. -/
theorem totals_never_zero_witness :
    1 ≤ (compare_frequency_files ["a: 2".data] ["b: 3".data] 5 [] []).total_count1
    ∧ 1 ≤ (compare_frequency_files ["a: 2".data] ["b: 3".data] 5 [] []).total_count2 :=
  ⟨(totals_never_zero.2 ["a: 2".data] ["b: 3".data] 5 [] []).2.2.2.2.1 (by decide),
   (totals_never_zero.2 ["a: 2".data] ["b: 3".data] 5 [] []).2.2.2.2.2 (by decide)⟩

end DocuSearch
namespace DocuSearch

/-! ### Normalization lemmas -/

theorem sum_map_cast_div (l : List Int) (t : ℚ) :
    (l.map (fun (z : Int) => (z : ℚ) / t)).sum = ((l.sum : Int) : ℚ) / t := by
  induction l with
  | nil => simp
  | cons a rest ih =>
    simp only [List.map_cons, List.sum_cons, ih]
    push_cast
    rw [add_div]

theorem map_snd_normalizeD (g : FreqTable) :
    (normalizeD g).map (fun q => q.2) =
      (g.map (fun p => p.2)).map
        (fun (z : Int) => (z : ℚ) / ((intOrOne (sumValuesD g) : Int) : ℚ)) := by
  simp [normalizeD, List.map_map]

theorem all_zero_of_sum_eq_zero (d : FreqTable) (h : ∀ p ∈ d, 0 ≤ p.2)
    (hs : sumValuesD d = 0) : ∀ p ∈ d, p.2 = 0 := by
  induction d with
  | nil => simp
  | cons q rest ih =>
    intro p hp
    simp only [sumValuesD, List.map_cons, List.sum_cons] at hs
    have hq : 0 ≤ q.2 := h q (List.mem_cons_self _ _)
    have hrest : 0 ≤ sumValuesD rest :=
      sumValuesD_nonneg rest (fun r hr => h r (List.mem_cons_of_mem _ hr))
    simp only [sumValuesD] at hrest
    rcases List.mem_cons.mp hp with hp' | hp'
    · rw [hp']
      omega
    · refine ih (fun r hr => h r (List.mem_cons_of_mem _ hr)) ?_ p hp'
      simp only [sumValuesD]
      omega

/-! ### Claim C7 -/

/-- C7 counterexample: the non-empty all-zero grouped table `{a: 0}`
normalizes (with the total floored to 1) to values summing to 0, not to 1 —
non-emptiness of the source table does not make the values sum to 1. -/
theorem normalize_sum_counterexample :
    ([("a".data, (0 : Int))] : FreqTable) ≠ []
    ∧ ((normalizeD [("a".data, (0 : Int))]).map (fun q => q.2)).sum = 0
    ∧ ((normalizeD [("a".data, (0 : Int))]).map (fun q => q.2)).sum ≠ 1 := by
  refine ⟨by simp, ?_, ?_⟩
  · simp [normalizeD, sumValuesD, intOrOne]
  · simp [normalizeD, sumValuesD, intOrOne]

/-- C7 (amended): for a grouped table whose counts are non-negative, every
normalized value lies in [0, 1]; and whenever the counts have positive sum
(rather than the table merely being non-empty) the normalized values sum to
exactly 1. -/
theorem normalize_bounds (g : FreqTable) (h : ∀ p ∈ g, 0 ≤ p.2) :
    (∀ q ∈ normalizeD g, 0 ≤ q.2 ∧ q.2 ≤ 1)
    ∧ (0 < sumValuesD g → ((normalizeD g).map (fun q => q.2)).sum = 1) := by
  constructor
  · intro q hq
    simp only [normalizeD, List.mem_map] at hq
    obtain ⟨p, hp, hpq⟩ := hq
    have hq2 : q.2 = (p.2 : ℚ) / ((intOrOne (sumValuesD g) : Int) : ℚ) := by
      rw [← hpq]
    rw [hq2]
    by_cases hz : sumValuesD g = 0
    · have hp0 : p.2 = 0 := all_zero_of_sum_eq_zero g h hz p hp
      rw [hp0]
      simp
    · have hsumpos : 0 < sumValuesD g :=
        lt_of_le_of_ne (sumValuesD_nonneg g h) (Ne.symm hz)
      have ht : intOrOne (sumValuesD g) = sumValuesD g := by
        unfold intOrOne
        rw [if_neg hz]
      rw [ht]
      have h1 : 0 ≤ p.2 := h p hp
      have h2 : p.2 ≤ sumValuesD g := by
        refine List.single_le_sum ?_ p.2 (List.mem_map_of_mem (fun r => r.2) hp)
        intro x hx
        obtain ⟨r, hr, hrx⟩ := List.mem_map.mp hx
        exact hrx ▸ h r hr
      constructor
      · apply div_nonneg
        · exact_mod_cast h1
        · exact_mod_cast le_of_lt hsumpos
      · rw [div_le_one (by exact_mod_cast hsumpos)]
        exact_mod_cast h2
  · intro hpos
    rw [map_snd_normalizeD, sum_map_cast_div]
    have hz : sumValuesD g ≠ 0 := by omega
    have ht : intOrOne (sumValuesD g) = sumValuesD g := by
      unfold intOrOne
      rw [if_neg hz]
    rw [ht]
    exact div_self (Int.cast_ne_zero.mpr hz)

/-- C7 witness: on the grouped table `{a: 2, b: 1}` (positive total) the
normalized values sum to exactly 1. -/
theorem normalize_bounds_witness :
    ((normalizeD [("a".data, (2 : Int)), ("b".data, 1)]).map (fun q => q.2)).sum = 1 :=
  (normalize_bounds [("a".data, (2 : Int)), ("b".data, 1)] (by decide)).2 (by decide)

end DocuSearch
namespace DocuSearch

/-! ### Ranking lemmas -/

theorem take_sort_facts {α : Type} (r : α → α → Prop) [DecidableRel r] [IsTotal α r]
    [IsTrans α r] (l : List α) (n : Nat) :
    ((List.insertionSort r l).take n).length ≤ n
    ∧ List.Sorted r ((List.insertionSort r l).take n)
    ∧ (∀ w ∈ (List.insertionSort r l).take n, w ∈ l)
    ∧ (l.length ≤ n → ((List.insertionSort r l).take n).Perm l) := by
  refine ⟨List.length_take_le n _, ?_, ?_, ?_⟩
  · exact List.Pairwise.sublist (List.take_sublist n _) (List.sorted_insertionSort r l)
  · intro w hw
    exact (List.perm_insertionSort r l).subset (List.take_subset n _ hw)
  · intro h
    have hlen : (List.insertionSort r l).length ≤ n := by
      rw [(List.perm_insertionSort r l).length_eq]
      exact h
    rw [List.take_of_length_le hlen]
    exact List.perm_insertionSort r l

/-! ### Claim C6 -/

/-- C6: `sorted_all_words` is drawn from the union of the two grouped
vocabularies, is sorted descending by the sum of the two normalized
frequencies (0 for an absent side, via `normGet`), is all of the union when
`top_n` allows, and all three ranked lists have length at most `top_n`. -/
theorem compare_ranking (lines1 lines2 : List Word) (top_n : Nat) (tp cp : Word) :
    (compare_frequency_files lines1 lines2 top_n tp cp).all_words =
        unionKeys (compare_frequency_files lines1 lines2 top_n tp cp).grouped_freq1
          (compare_frequency_files lines1 lines2 top_n tp cp).grouped_freq2
    ∧ (compare_frequency_files lines1 lines2 top_n tp cp).norm1 =
        normalizeD (compare_frequency_files lines1 lines2 top_n tp cp).grouped_freq1
    ∧ (compare_frequency_files lines1 lines2 top_n tp cp).norm2 =
        normalizeD (compare_frequency_files lines1 lines2 top_n tp cp).grouped_freq2
    ∧ (compare_frequency_files lines1 lines2 top_n tp cp).sorted_all_words.length ≤ top_n
    ∧ List.Sorted
        (rankSum (compare_frequency_files lines1 lines2 top_n tp cp).norm1
          (compare_frequency_files lines1 lines2 top_n tp cp).norm2)
        (compare_frequency_files lines1 lines2 top_n tp cp).sorted_all_words
    ∧ (∀ w ∈ (compare_frequency_files lines1 lines2 top_n tp cp).sorted_all_words,
        w ∈ (compare_frequency_files lines1 lines2 top_n tp cp).all_words)
    ∧ ((compare_frequency_files lines1 lines2 top_n tp cp).all_words.length ≤ top_n →
        (compare_frequency_files lines1 lines2 top_n tp cp).sorted_all_words.Perm
          (compare_frequency_files lines1 lines2 top_n tp cp).all_words)
    ∧ (compare_frequency_files lines1 lines2 top_n tp cp).unique_to_file1.length ≤ top_n
    ∧ (compare_frequency_files lines1 lines2 top_n tp cp).unique_to_file2.length ≤ top_n := by
  refine ⟨rfl, rfl, rfl, ?_, ?_, ?_, ?_, ?_, ?_⟩
  · exact (take_sort_facts _ _ _).1
  · exact (take_sort_facts _ _ _).2.1
  · exact (take_sort_facts _ _ _).2.2.1
  · exact (take_sort_facts _ _ _).2.2.2
  · exact (take_sort_facts (rankOne _) _ _).1
  · exact (take_sort_facts (rankOne _) _ _).1

/-- C6 witness: on two one-word corpora with `top_n = 5` the ranked union is
a permutation of the whole union. -/
theorem compare_ranking_witness :
    (compare_frequency_files ["aa: 1".data] ["bb: 1".data] 5 [] []).sorted_all_words.Perm
      (compare_frequency_files ["aa: 1".data] ["bb: 1".data] 5 [] []).all_words :=
  (compare_ranking ["aa: 1".data] ["bb: 1".data] 5 [] []).2.2.2.2.2.2.1 (by decide)

end DocuSearch
namespace DocuSearch

/-! ### Claim C3 -/

/-- A concrete two-corpus run: first corpus `{risk: 2}`, second `{policy: 1}`,
`top_n = 100`, output templates `out.txt` / `out.csv`. -/
def c3Example : ComparisonData :=
  compare_frequency_files ["risk: 2".data] ["policy: 1".data] 100 "out.txt".data "out.csv".data

/-- C3: on a concrete pair of corpora, `compare_frequency_files` emits
exactly two reports — one for `unique_to_file1` and one for
`unique_to_file2`, each saved to both a text and a csv target — and each
emitted report renders a single-word list, while the computed
`sorted_all_words` ranking (`top_overall`) has two entries: the ranked union
is computed but never rendered or persisted, so only two of the three ranked
sequences are emitted. -/
theorem top_overall_not_emitted :
    c3Example.emissions.map (fun e => e.title) =
      ["Words Unique to 2024 (File 1)".data, "Words Unique to 2025 (File 2)".data]
    ∧ c3Example.emissions.length = 2
    ∧ c3Example.emissions.map (fun e => e.savedTxt) = [true, true]
    ∧ c3Example.emissions.map (fun e => e.savedCsv) = [true, true]
    ∧ c3Example.emissions.map (fun e => e.rows.map (fun r => r.word)) =
        [["risk".data], ["policy".data]]
    ∧ c3Example.all_words.length = 2
    ∧ c3Example.sorted_all_words.length = 2 := by
  have hsorted : c3Example.sorted_all_words.length = 2 := by
    have h := (take_sort_facts (rankSum c3Example.norm1 c3Example.norm2)
      c3Example.all_words 100).2.2.2 (by decide)
    exact h.length_eq.trans (by decide)
  exact ⟨by decide, by decide, by decide, by decide, by decide, by decide, hsorted⟩

end DocuSearch
